import Mathlib

/-!
Verification development for the CodeScope indexing-and-retrieval pipeline.

The definitions below are a shallow embedding of the Python sources:
- `backend/app/services/hybrid_search.py`  (hybrid ranker / lexical score fusion)
- `backend/app/services/ingestion.py`      (repository walk, batching, index replacement)
- `backend/app/services/code_intelligence.py` (syntax-tree entity extraction)

Python floats are modelled as exact rationals (`ℚ`); external capabilities
(the Chroma vector store, the BM25 scorer internals, tree-sitter parsers,
text splitters) are passed in as explicit oracle arguments, while everything
the repository's own code does with their results is embedded faithfully.
-/

namespace CodeScope

/-! ## Hybrid search (`hybrid_search.py`)

`HybridSearcher.search` builds a dict `combined_scores` keyed by the Python
object identity `id(doc)` of each candidate document.  Object identities are
modelled as natural numbers.  A dict entry `{'doc', 'score', 'semantic',
'bm25'}` is modelled by `ScoreEntry`; the insertion-ordered dict itself by an
association list (assignment to an existing key overwrites in place, a new
key is appended at the end, exactly like a Python dict). -/

structure ScoreEntry where
  doc : Nat
  score : ℚ
  semantic : ℚ
  bm25 : ℚ
deriving DecidableEq

/-- Default `semantic_weight` from `HybridSearcher.__init__` / `get_hybrid_searcher`. -/
def default_semantic_weight : ℚ := 0.7

/-- Default `bm25_weight` from `HybridSearcher.__init__` / `get_hybrid_searcher`. -/
def default_bm25_weight : ℚ := 0.3

/-- `combined_scores[doc_id] = e` — Python dict assignment: overwrite keeps the
key's position, a fresh key is appended. -/
def dictSet (m : List ScoreEntry) (e : ScoreEntry) : List ScoreEntry :=
  if m.any (fun x => x.doc == e.doc) then
    m.map (fun x => if x.doc = e.doc then e else x)
  else m ++ [e]

/-- `similarity = 1 / (1 + distance)` (line 97 of `hybrid_search.py`). -/
def similarityOfDistance (d : ℚ) : ℚ := 1 / (1 + d)

/-- One iteration of the semantic loop (lines 95–104): store
`{'score': similarity * semantic_weight, 'semantic': similarity, 'bm25': 0}`. -/
def addSemanticEntry (sw : ℚ) (m : List ScoreEntry) (p : Nat × ℚ) : List ScoreEntry :=
  dictSet m ⟨p.1, similarityOfDistance p.2 * sw, similarityOfDistance p.2, 0⟩

/-- One iteration of the BM25 loop (lines 107–118): add
`bm25_score * bm25_weight` to an existing entry and record the bm25 component,
or insert a bm25-only entry with semantic component 0. -/
def addBm25Entry (bw : ℚ) (m : List ScoreEntry) (p : Nat × ℚ) : List ScoreEntry :=
  if m.any (fun x => x.doc == p.1) then
    m.map (fun x =>
      if x.doc = p.1 then { x with score := x.score + p.2 * bw, bm25 := p.2 } else x)
  else m ++ [⟨p.1, p.2 * bw, 0, p.2⟩]

/-- The whole fusion step (lines 91–118): semantic results (as
`(doc_id, distance)` pairs) first, then BM25 results (as
`(doc_id, normalized_score)` pairs). -/
def combineScores (sw bw : ℚ) (semanticResults bm25Results : List (Nat × ℚ)) :
    List ScoreEntry :=
  bm25Results.foldl (addBm25Entry bw) (semanticResults.foldl (addSemanticEntry sw) [])

/-- `sorted(combined_scores.values(), key=lambda x: x['score'], reverse=True)` —
a stable descending sort on the fused score, modelled by stable insertion sort. -/
def rankEntries (l : List ScoreEntry) : List ScoreEntry :=
  List.insertionSort (fun a b => b.score ≤ a.score) l

/-- `bm25_results.sort(key=lambda x: x[1], reverse=True)` on
`(document, normalized_score)` pairs. -/
def sortPairsDesc (l : List (Nat × ℚ)) : List (Nat × ℚ) :=
  List.insertionSort (fun a b : Nat × ℚ => b.2 ≤ a.2) l

/-- `max(bm25_scores)` for a non-empty batch (Python's `max` raises on an
empty sequence; the `[]` case below is never reached by `search`). -/
def batchMax : List ℚ → ℚ
  | [] => 0
  | x :: xs => xs.foldl max x

/-- `max_bm25_score = max(bm25_scores) if max(bm25_scores) > 0 else 1` (line 80). -/
def maxOrOne (l : List ℚ) : ℚ :=
  if 0 < batchMax l then batchMax l else 1

/-- `normalized_bm25_scores = [score / max_bm25_score for score in bm25_scores]`. -/
def normalizedScores (l : List ℚ) : List ℚ :=
  l.map (fun s => s / maxOrOne l)

/-- The one in-source failure mode of `search`: `max()` over an empty score
batch (line 80) raises `ValueError` when the corpus is empty. -/
inductive SearchError where
  | emptyScoreBatch
deriving DecidableEq

/-- `HybridSearcher.search` down to the ranked `combined_scores` entries
(`ranked_results[:k]`, lines 49–129).

* `corpusGet` models `vector_store.get()`:  `none` is the falsy /
  missing-`'documents'` early-return branch (lines 52–54), `some corpus` a
  record set whose documents are identified by the positions of `corpus`.
* `semanticResults` models `vector_store.similarity_search_with_score` output:
  `(doc_id, distance)` pairs (fresh objects returned by the store).
* `bm25Raw` models `bm25_index.get_scores`, one raw score per corpus position.
* The BM25 index is assumed rebuilt/reused over exactly the fetched corpus,
  per the size-match check of lines 68–70. -/
def searchRanked (corpusGet : Option (List Nat)) (semanticResults : List (Nat × ℚ))
    (bm25Raw : Nat → ℚ) (sw bw : ℚ) (k : Nat) : Except SearchError (List ScoreEntry) :=
  match corpusGet with
  | none => .ok []
  | some corpus =>
    match (List.range corpus.length).map bm25Raw with
    | [] => .error .emptyScoreBatch
    | s :: srest =>
      let scores := s :: srest
      let bm25Top := (sortPairsDesc (corpus.zip (normalizedScores scores))).take (k * 2)
      let ranked := rankEntries (combineScores sw bw semanticResults bm25Top)
      .ok (ranked.take k)

/-- `HybridSearcher.search`'s return value: the documents of the top-`k`
ranked entries (line 135). -/
def search (corpusGet : Option (List Nat)) (semanticResults : List (Nat × ℚ))
    (bm25Raw : Nat → ℚ) (sw bw : ℚ) (k : Nat) : Except SearchError (List Nat) :=
  (searchRanked corpusGet semanticResults bm25Raw sw bw k).map (fun l => l.map ScoreEntry.doc)

/-! ## Ingestion (`ingestion.py`)

### Directory walk and file filter (`load_documents`, lines 90–117)

A directory tree is a list of named entries; a document is identified by its
path relative to the repository root, as the list of path segments
(`os.walk` prunes denylisted directory names from `dirs` in place, so the
walk never descends into them; the repository root itself is the walk's
starting point and contributes no segment). -/

/-- `SUPPORTED_EXTENSIONS` (lines 15–18). -/
def SUPPORTED_EXTENSIONS : List String :=
  [".py", ".js", ".ts", ".tsx", ".jsx", ".md", ".txt",
   ".java", ".go", ".cpp", ".c", ".h", ".cs", ".php", ".rb", ".rs", ".swift", ".kt"]

/-- `IGNORED_DIRS` (lines 21–23). -/
def IGNORED_DIRS : List String :=
  [".git", "node_modules", "__pycache__", "venv", "env", ".idea", ".vscode",
   "dist", "build", "coverage"]

/-- Index of the last occurrence of `c`, if any. -/
def lastIdxOf (c : Char) : List Char → Option Nat
  | [] => none
  | x :: xs =>
    match lastIdxOf c xs with
    | some i => some (i + 1)
    | none => if x = c then some 0 else none

/-- `os.path.splitext(name)[1]` for a single path segment (the basename):
the suffix starting at the last dot, provided some non-dot character occurs
before that dot (so dotfiles like `.git` have extension `""`). -/
def splitextExt (name : String) : String :=
  let cs := name.toList
  match lastIdxOf '.' cs with
  | none => ""
  | some i =>
    if (cs.take i).any (fun ch => ch != '.') then String.mk (cs.drop i) else ""

/-- `is_valid_file` (lines 29–31): extension membership in the allow-list.
`os.path.splitext` of the joined path inspects only the basename, so the
check depends only on the file's own name. -/
def is_valid_file (name : String) : Bool :=
  SUPPORTED_EXTENSIONS.contains (splitextExt name)

/-- One file-system entry: a file or a directory with entries. -/
inductive FSEntry where
  | file (name : String)
  | dir (name : String) (entries : List FSEntry)

/-- The inner `for file in files` loop of `load_documents` for one walked
directory: collect every valid file's path (encoding failures of
`TextLoader`, which are skipped with a log line, are outside this model;
they only shrink the collected list further and touch no other state). -/
def dirFiles (pre : List String) (es : List FSEntry) : List (List String) :=
  es.filterMap fun e =>
    match e with
    | .file n => if is_valid_file n then some (pre ++ [n]) else none
    | .dir _ _ => none

mutual
/-- Descent of `os.walk` into one entry: files contribute nothing here (they
are picked up by `dirFiles` of their parent), a directory is pruned when its
name is denylisted (`dirs[:] = [d for d in dirs if d not in IGNORED_DIRS]`),
otherwise its own files are collected and the walk recurses. -/
def walkEntry (pre : List String) : FSEntry → List (List String)
  | .file _ => []
  | .dir n children =>
      if n ∈ IGNORED_DIRS then []
      else dirFiles (pre ++ [n]) children ++ walkList (pre ++ [n]) children

/-- Walk each entry of a directory in order. -/
def walkList (pre : List String) : List FSEntry → List (List String)
  | [] => []
  | e :: rest => walkEntry pre e ++ walkList pre rest
end

/-- `load_documents(repo_path)`: top-down walk from the repository root —
the root's own files first, then each subtree. -/
def load_documents (tree : List FSEntry) : List (List String) :=
  dirFiles [] tree ++ walkList [] tree

/-! ### Batching and index replacement (`ingest_repository_stream`, lines 119–236) -/

/-- `BATCH_SIZE = 166` (line 26): insert batch size. -/
def BATCH_SIZE : Nat := 166

/-- `BATCH_DELETE_LIMIT = 5000` (line 27): delete batch size. -/
def BATCH_DELETE_LIMIT : Nat := 5000

/-- Fueled slicing loop; with fuel ≥ the list's length and a positive limit
this realizes `for i in range(0, len(l), limit): l[i : i + limit]`. -/
def batchesGo (limit : Nat) : Nat → List α → List (List α)
  | 0, _ => []
  | _, [] => []
  | fuel + 1, x :: xs => (x :: xs).take limit :: batchesGo limit fuel ((x :: xs).drop limit)

/-- The consecutive batches `l[0:limit], l[limit:2*limit], ...` used by both
the delete loop (lines 207–209) and the insert loop (lines 222–226). -/
def batches (limit : Nat) (l : List α) : List (List α) :=
  batchesGo limit l.length l

/-- One observable call to the Index Store. -/
inductive StoreCall (ι χ : Type) where
  | fetchIds
  | deleteIds (ids : List ι)
  | insertChunks (cs : List χ)
deriving DecidableEq

/-- The Index Store as an oracle: outcomes of `get()`, of one
`delete(batch_ids)` call and of one `add_documents(batch)` call.
`ι` is the record-id type, `χ` the chunk type, `ε` the exception type. -/
structure StoreBehavior (ε ι χ : Type) where
  fetchIds : Except ε (List ι)
  deleteBatch : List ι → Except ε Unit
  insertBatch : List χ → Except ε Unit

/-- A `for batch in batches: call(batch)` loop: the calls actually issued, in
order, and the loop's outcome — an exception aborts the loop at the failing
call and propagates. -/
def batchCallLoop (f : β → Except ε Unit) : List β → List β × Except ε Unit
  | [] => ([], .ok ())
  | b :: bs =>
    match f b with
    | .ok _ => ((batchCallLoop f bs).1.cons b, (batchCallLoop f bs).2)
    | .error e => ([b], .error e)

/-- The `try: get/delete ... except: warn` block (lines 200–214): any failure
while fetching or batch-deleting the existing records is caught; the calls
issued up to that point are recorded and control falls through. -/
def cleanupPhase (sb : StoreBehavior ε ι χ) : List (StoreCall ι χ) :=
  match sb.fetchIds with
  | .error _ => [.fetchIds]
  | .ok ids =>
    if ids.isEmpty then [.fetchIds]
    else .fetchIds ::
      ((batchCallLoop sb.deleteBatch (batches BATCH_DELETE_LIMIT ids)).1.map StoreCall.deleteIds)

/-- The `try: add_documents ... except: raise` block (lines 218–232): insert
the new chunks in `BATCH_SIZE` batches; a failure aborts and is re-raised. -/
def insertPhase (sb : StoreBehavior ε ι χ) (chunks : List χ) :
    List (StoreCall ι χ) × Except ε Unit :=
  ((batchCallLoop sb.insertBatch (batches BATCH_SIZE chunks)).1.map StoreCall.insertChunks,
   (batchCallLoop sb.insertBatch (batches BATCH_SIZE chunks)).2)

/-- STEP 3/3 of `ingest_repository_stream`: cleanup (non-fatal) then insert
(fatal on failure). -/
def storePhase (sb : StoreBehavior ε ι χ) (chunks : List χ) :
    List (StoreCall ι χ) × Except ε Unit :=
  (cleanupPhase sb ++ (insertPhase sb chunks).1, (insertPhase sb chunks).2)

/-- The progress messages the generator yields, abstracted from their text. -/
inductive IngestMsg where
  | starting
  | pathNotFound
  | repoPath
  | step1Loading
  | noValidDocs
  | loadedFiles (n : Nat)
  | step2Chunking
  | totalChunks (n : Nat)
  | step3Storing
  | complete
deriving DecidableEq

/-- `ingest_repository_stream(repo_path)` (lines 119–236): returns the yielded
messages, the Index Store calls issued, and the outcome.  `pathExists` models
`os.path.exists(repo_path)`; `chunker` bundles the external text splitters of
STEP 2 together with the best-effort entity-metadata enrichment (chunk count
and store writes are all later steps see of it); `sb` is the Index Store. -/
def ingest_repository_stream (pathExists : Bool) (tree : List FSEntry)
    (chunker : List (List String) → List χ) (sb : StoreBehavior ε ι χ) :
    List IngestMsg × List (StoreCall ι χ) × Except ε Unit :=
  if pathExists = false then ([.starting, .pathNotFound], [], .ok ())
  else
    let docs := load_documents tree
    if docs.isEmpty then ([.starting, .repoPath, .step1Loading, .noValidDocs], [], .ok ())
    else
      let chunks := chunker docs
      let res := storePhase sb chunks
      ([.starting, .repoPath, .step1Loading, .loadedFiles docs.length,
        .step2Chunking, .totalChunks chunks.length, .step3Storing] ++
        (match res.2 with | .ok _ => [.complete] | .error _ => []),
       res.1, res.2)

/-! ## Code intelligence (`code_intelligence.py`)

A tree-sitter concrete syntax tree is modelled by `TSNode`.  The parser's
`child_by_field_name('name')` followed by the byte-slice decode of that
child's span is modelled by `nameText`; `child_by_field_name('value')`
is consulted only for its `.type`, modelled by `valueType`. -/

/-- A tree-sitter node: type string, 0-indexed start/end rows
(`start_point[0]` / `end_point[0]`), optional `name`-field text, optional
`value`-field node type, and the child nodes. -/
inductive TSNode where
  | mk (ty : String) (startRow endRow : Nat) (nameText : Option String)
       (valueType : Option String) (children : List TSNode)

def TSNode.ty : TSNode → String
  | .mk t _ _ _ _ _ => t

def TSNode.startRow : TSNode → Nat
  | .mk _ s _ _ _ _ => s

def TSNode.endRow : TSNode → Nat
  | .mk _ _ e _ _ _ => e

def TSNode.nameText : TSNode → Option String
  | .mk _ _ _ nm _ _ => nm

def TSNode.valueType : TSNode → Option String
  | .mk _ _ _ _ vt _ => vt

def TSNode.children : TSNode → List TSNode
  | .mk _ _ _ _ _ cs => cs

/-- `CodeEntity` (lines 20–38). -/
structure CodeEntity where
  entity_type : String
  name : String
  start_line : Nat
  end_line : Nat
  file_path : String
deriving DecidableEq

/-- The entities `ASTParser.parse_python`'s `traverse` appends at one node
(lines 71–94): named function and class definitions, with 1-indexed lines
`node.start_point[0] + 1 .. node.end_point[0] + 1`. -/
def pyNodeEntities (fp : String) (n : TSNode) : List CodeEntity :=
  if n.ty = "function_definition" then
    match n.nameText with
    | some nm => [⟨"function", nm, n.startRow + 1, n.endRow + 1, fp⟩]
    | none => []
  else if n.ty = "class_definition" then
    match n.nameText with
    | some nm => [⟨"class", nm, n.startRow + 1, n.endRow + 1, fp⟩]
    | none => []
  else []

mutual
/-- `parse_python`'s depth-first `traverse` (lines 71–100): the node's own
entities, then its children in order. -/
def pyTraverse (fp : String) : TSNode → List CodeEntity
  | .mk ty s e nm vt cs =>
    pyNodeEntities fp (.mk ty s e nm vt cs) ++ pyTraverseList fp cs

def pyTraverseList (fp : String) : List TSNode → List CodeEntity
  | [] => []
  | c :: cs => pyTraverse fp c ++ pyTraverseList fp cs
end

/-- The entities `ASTParser.parse_javascript`'s `traverse` appends at one
node (lines 115–154): function declarations/expressions and class
declarations with the node's own 1-indexed line span; and, for a
`lexical_declaration`, one `function` entity per `variable_declarator` child
whose value is an arrow-function or function expression — attributed to the
*declaration* node's line span, with the declarator's name. -/
def jsNodeEntities (fp : String) (n : TSNode) : List CodeEntity :=
  if n.ty = "function_declaration" ∨ n.ty = "function" then
    match n.nameText with
    | some nm => [⟨"function", nm, n.startRow + 1, n.endRow + 1, fp⟩]
    | none => []
  else if n.ty = "lexical_declaration" then
    n.children.filterMap fun c =>
      if c.ty = "variable_declarator" then
        match c.nameText, c.valueType with
        | some nm, some vt =>
          if vt = "arrow_function" ∨ vt = "function" then
            some ⟨"function", nm, n.startRow + 1, n.endRow + 1, fp⟩
          else none
        | _, _ => none
      else none
  else if n.ty = "class_declaration" then
    match n.nameText with
    | some nm => [⟨"class", nm, n.startRow + 1, n.endRow + 1, fp⟩]
    | none => []
  else []

mutual
/-- `parse_javascript`'s depth-first `traverse` (lines 115–160). -/
def jsTraverse (fp : String) : TSNode → List CodeEntity
  | .mk ty s e nm vt cs =>
    jsNodeEntities fp (.mk ty s e nm vt cs) ++ jsTraverseList fp cs

def jsTraverseList (fp : String) : List TSNode → List CodeEntity
  | [] => []
  | c :: cs => jsTraverse fp c ++ jsTraverseList fp cs
end

/-- "`m` occurs in the tree rooted at `n`". -/
inductive Subnode : TSNode → TSNode → Prop where
  | refl (n : TSNode) : Subnode n n
  | child {m c n : TSNode} : c ∈ n.children → Subnode m c → Subnode m n

/-- Failure of the external tree-sitter machinery while parsing one file
(caught by `parse_file`'s `try`). -/
inductive ParseError where
  | parseFailed
deriving DecidableEq

/-- The JS/TS extension family of `parse_file` (line 180). -/
def jsExtensions : List String := [".js", ".jsx", ".ts", ".tsx"]

/-- `ASTParser.parse_file` (lines 163–187): dispatch on the extension;
`treeOf` is the outcome of `parser.parse(source_bytes)` — an exception
anywhere in the `try` is caught and yields `[]`.  Unsupported extensions
yield `[]` directly. -/
def parse_file (treeOf : Except ParseError TSNode) (file_path extension : String) :
    List CodeEntity :=
  if extension = ".py" then
    match treeOf with
    | .ok t => pyTraverse file_path t
    | .error _ => []
  else if extension ∈ jsExtensions then
    match treeOf with
    | .ok t => jsTraverse file_path t
    | .error _ => []
  else []

/-- A loaded document as `extract_code_entities` sees it: its
`metadata['source']` and `metadata['extension']` (the page content is only
ever handed to the parse oracle). -/
structure SrcDoc where
  source : String
  extension : String

/-- `entities_by_file[file_path] = entities` — Python dict assignment. -/
def assocSet (m : List (String × List CodeEntity)) (k : String) (v : List CodeEntity) :
    List (String × List CodeEntity) :=
  if m.any (fun x => x.1 == k) then m.map (fun x => if x.1 = k then (k, v) else x)
  else m ++ [(k, v)]

/-- The supported-extension filter of `extract_code_entities` (line 222). -/
def supportedExtensions : List String := [".py", ".js", ".jsx", ".ts", ".tsx"]

/-- One iteration of the `for doc in documents` loop of
`extract_code_entities` (lines 217–234): skip unsupported extensions, parse,
and record a key only when at least one entity was produced. -/
def extractStep (treeOf : SrcDoc → Except ParseError TSNode)
    (m : List (String × List CodeEntity)) (d : SrcDoc) :
    List (String × List CodeEntity) :=
  if d.extension ∈ supportedExtensions then
    if (parse_file (treeOf d) d.source d.extension).isEmpty then m
    else assocSet m d.source (parse_file (treeOf d) d.source d.extension)
  else m

/-- `extract_code_entities(documents)` (lines 201–239): `treeOf` gives each
document's parse outcome. -/
def extract_code_entities (treeOf : SrcDoc → Except ParseError TSNode)
    (documents : List SrcDoc) : List (String × List CodeEntity) :=
  documents.foldl (extractStep treeOf) []

/-- The tree-sitter tree of the two-declarator statement
`const g = 1,\n      f = () => x;` — a `lexical_declaration` spanning rows
0–1 whose second `variable_declarator` (row 1 only) binds `f` to an
arrow-function expression. -/
def sampleArrowDecl : TSNode :=
  .mk "lexical_declaration" 0 1 none none
    [.mk "variable_declarator" 0 0 (some "g") (some "number") [],
     .mk "variable_declarator" 1 1 (some "f") (some "arrow_function")
       [.mk "arrow_function" 1 1 none none []]]

instance : IsTotal ScoreEntry (fun a b => b.score ≤ a.score) :=
  ⟨fun a b => le_total b.score a.score⟩

instance : IsTrans ScoreEntry (fun a b => b.score ≤ a.score) :=
  ⟨fun _ _ _ hab hbc => le_trans hbc hab⟩

/-! ## Helper lemmas -/

lemma mem_dictSet {m : List ScoreEntry} {x e : ScoreEntry} (h : e ∈ dictSet m x) :
    e = x ∨ e ∈ m := by
  unfold dictSet at h
  split at h
  · obtain ⟨y, hy, hfy⟩ := List.mem_map.mp h
    by_cases hd : y.doc = x.doc
    · rw [if_pos hd] at hfy
      exact Or.inl hfy.symm
    · rw [if_neg hd] at hfy
      exact Or.inr (hfy ▸ hy)
  · rcases List.mem_append.mp h with h | h
    · exact Or.inr h
    · simp only [List.mem_singleton] at h
      exact Or.inl h

lemma semFold_mem (sw : ℚ) (sem : List (Nat × ℚ)) :
    ∀ (m : List ScoreEntry), ∀ e ∈ sem.foldl (addSemanticEntry sw) m,
      e ∈ m ∨ (e.doc ∈ sem.map Prod.fst ∧ e.score = e.semantic * sw ∧ e.bm25 = 0) := by
  induction sem with
  | nil => intro m e he; exact Or.inl he
  | cons p rest ih =>
    intro m e he
    rcases ih (addSemanticEntry sw m p) e he with h | h
    · rcases mem_dictSet h with h | h
      · subst h
        exact Or.inr ⟨by simp, rfl, rfl⟩
      · exact Or.inl h
    · exact Or.inr ⟨by simp only [List.map_cons, List.mem_cons]; exact Or.inr h.1, h.2⟩

lemma mem_addBm25Entry {bw : ℚ} {m : List ScoreEntry} {p : Nat × ℚ} {e : ScoreEntry}
    (h : e ∈ addBm25Entry bw m p) :
    (∃ x ∈ m, x.doc = p.1 ∧ e = { x with score := x.score + p.2 * bw, bm25 := p.2 })
    ∨ (e ∈ m ∧ e.doc ≠ p.1)
    ∨ e = ⟨p.1, p.2 * bw, 0, p.2⟩ := by
  by_cases hany : m.any (fun x => x.doc == p.1) = true
  · rw [addBm25Entry, if_pos hany] at h
    obtain ⟨y, hy, hfy⟩ := List.mem_map.mp h
    by_cases hd : y.doc = p.1
    · rw [if_pos hd] at hfy
      exact Or.inl ⟨y, hy, hd, hfy.symm⟩
    · rw [if_neg hd] at hfy
      subst hfy
      exact Or.inr (Or.inl ⟨hy, hd⟩)
  · rw [addBm25Entry, if_neg hany] at h
    rcases List.mem_append.mp h with h | h
    · refine Or.inr (Or.inl ⟨h, ?_⟩)
      intro hdoc
      exact hany (List.any_eq_true.mpr ⟨e, h, by simp [hdoc]⟩)
    · simp only [List.mem_singleton] at h
      exact Or.inr (Or.inr h)

lemma bmFold_formula (sw bw : ℚ) (S : List Nat) (bm : List (Nat × ℚ)) :
    ∀ (m : List ScoreEntry),
      (bm.map Prod.fst).Nodup →
      (∀ e ∈ m, e.score = e.semantic * sw + e.bm25 * bw ∧ (e.semantic ≠ 0 → e.doc ∈ S)
        ∧ (e.bm25 = 0 ∨ e.doc ∉ bm.map Prod.fst)) →
      ∀ e ∈ bm.foldl (addBm25Entry bw) m,
        e.score = e.semantic * sw + e.bm25 * bw ∧ (e.semantic ≠ 0 → e.doc ∈ S) := by
  induction bm with
  | nil => intro m _ hm e he; exact ⟨(hm e he).1, (hm e he).2.1⟩
  | cons p rest ih =>
    intro m hnd hm e he
    simp only [List.map_cons, List.nodup_cons] at hnd
    refine ih (addBm25Entry bw m p) hnd.2 ?_ e he
    intro x hx
    rcases mem_addBm25Entry hx with ⟨y, hy, hydoc, hxe⟩ | ⟨hxm, hxdoc⟩ | hnew
    · obtain ⟨hfy, hsem, hfresh⟩ := hm y hy
      have hb0 : y.bm25 = 0 := by
        rcases hfresh with h0 | hnot
        · exact h0
        · exact absurd (by simp [hydoc]) hnot
      subst hxe
      refine ⟨?_, hsem, Or.inr ?_⟩
      · simp only
        rw [hfy, hb0]; ring
      · simp only
        rw [hydoc]; exact hnd.1
    · obtain ⟨hf, hsem, hfresh⟩ := hm x hxm
      refine ⟨hf, hsem, ?_⟩
      rcases hfresh with h0 | hnot
      · exact Or.inl h0
      · exact Or.inr (fun hc => hnot (by simp only [List.map_cons, List.mem_cons]; exact Or.inr hc))
    · subst hnew
      refine ⟨by simp, by simp, Or.inr hnd.1⟩

lemma bmFold_keys (bw : ℚ) (K : List Nat) (bm : List (Nat × ℚ)) :
    ∀ (m : List ScoreEntry),
      (∀ p ∈ bm, p.1 ∈ K) →
      (∀ e ∈ m, e.bm25 ≠ 0 → e.doc ∈ K) →
      ∀ e ∈ bm.foldl (addBm25Entry bw) m, e.bm25 ≠ 0 → e.doc ∈ K := by
  induction bm with
  | nil => intro m _ hm e he; exact hm e he
  | cons p rest ih =>
    intro m hk hm e he
    refine ih (addBm25Entry bw m p) (fun q hq => hk q (List.mem_cons_of_mem p hq)) ?_ e he
    intro x hx hb
    rcases mem_addBm25Entry hx with ⟨y, hy, hydoc, hxe⟩ | ⟨hxm, _⟩ | hnew
    · subst hxe
      simpa [hydoc] using hk p (List.mem_cons_self p rest)
    · exact hm x hxm hb
    · subst hnew
      exact hk p (List.mem_cons_self p rest)

lemma le_batchMax_foldl (xs : List ℚ) :
    ∀ (x : ℚ), x ≤ xs.foldl max x ∧ ∀ s ∈ xs, s ≤ xs.foldl max x := by
  induction xs with
  | nil => intro x; exact ⟨le_refl x, by intro s hs; exact absurd hs (List.not_mem_nil s)⟩
  | cons y ys ih =>
    intro x
    have h := ih (max x y)
    simp only [List.foldl_cons]
    refine ⟨le_trans (le_max_left x y) h.1, ?_⟩
    intro s hs
    rcases List.mem_cons.mp hs with h1 | h1
    · rw [h1]
      exact le_trans (le_max_right x y) h.1
    · exact h.2 s h1

lemma le_batchMax {scores : List ℚ} {s : ℚ} (hs : s ∈ scores) : s ≤ batchMax scores := by
  cases scores with
  | nil => exact absurd hs (List.not_mem_nil s)
  | cons x xs =>
    rcases List.mem_cons.mp hs with h | h
    · subst h
      exact (le_batchMax_foldl xs s).1
    · exact (le_batchMax_foldl xs x).2 s h

/-! ## Claim theorems -/

/-- C1: the fused score of every candidate in `combined_scores` is
`semantic_similarity * semantic_weight + lexical_score * lexical_weight`,
with 0 substituted for whichever component's result set does not contain the
candidate; on the 3-document synthetic corpus A=(sem .9, lex 0),
B=(sem 0, lex 1), C=(sem .5, lex .5) with the default weights 0.7/0.3 the
fused scores are A=0.63, B=0.30, C=0.50 and the rank order is [A, C, B]
(docs 0, 2, 1 with semantic distances 1/9 and 1 giving similarities 0.9
and 0.5). -/
theorem fused_score_formula (sw bw : ℚ) (sem bm : List (Nat × ℚ))
    (hnd : (bm.map Prod.fst).Nodup) :
    (∀ e ∈ combineScores sw bw sem bm,
        e.score = e.semantic * sw + e.bm25 * bw
        ∧ (e.doc ∉ sem.map Prod.fst → e.semantic = 0)
        ∧ (e.doc ∉ bm.map Prod.fst → e.bm25 = 0))
    ∧ (rankEntries (combineScores default_semantic_weight default_bm25_weight
        [(0, 1/9), (2, 1)] [(1, 1), (2, 1/2), (0, 0)])).map (fun e => (e.doc, e.score))
        = [(0, 63/100), (2, 1/2), (1, 3/10)] := by
  constructor
  · intro e he
    unfold combineScores at he
    have hbase : ∀ x ∈ sem.foldl (addSemanticEntry sw) [],
        x.score = x.semantic * sw + x.bm25 * bw ∧ (x.semantic ≠ 0 → x.doc ∈ sem.map Prod.fst)
        ∧ (x.bm25 = 0 ∨ x.doc ∉ bm.map Prod.fst) := by
      intro x hx
      rcases semFold_mem sw sem [] x hx with h | ⟨hdoc, hs, hb⟩
      · exact absurd h (List.not_mem_nil x)
      · exact ⟨by rw [hs, hb]; ring, fun _ => hdoc, Or.inl hb⟩
    have h1 := bmFold_formula sw bw (sem.map Prod.fst) bm _ hnd hbase e he
    have hbase2 : ∀ x ∈ sem.foldl (addSemanticEntry sw) [],
        x.bm25 ≠ 0 → x.doc ∈ bm.map Prod.fst := by
      intro x hx hb
      rcases semFold_mem sw sem [] x hx with h | ⟨_, _, h0⟩
      · exact absurd h (List.not_mem_nil x)
      · exact absurd h0 hb
    have h2 := bmFold_keys bw (bm.map Prod.fst) bm _
      (fun q hq => List.mem_map_of_mem Prod.fst hq) hbase2 e he
    refine ⟨h1.1, ?_, ?_⟩
    · intro hns
      by_contra hne
      exact hns (h1.2 hne)
    · intro hnb
      by_contra hne
      exact hnb (h2 hne)
  · norm_num [rankEntries, combineScores, addSemanticEntry, addBm25Entry, dictSet,
      similarityOfDistance, default_semantic_weight, default_bm25_weight,
      List.insertionSort, List.orderedInsert]

/-- Witness for C1 at the synthetic 3-document corpus. -/
theorem fused_score_formula_witness :
    (rankEntries (combineScores default_semantic_weight default_bm25_weight
      [(0, 1/9), (2, 1)] [(1, 1), (2, 1/2), (0, 0)])).map (fun e => (e.doc, e.score))
      = [(0, 63/100), (2, 1/2), (1, 3/10)] :=
  (fused_score_formula default_semantic_weight default_bm25_weight
    [(0, 1/9), (2, 1)] [(1, 1), (2, 1/2), (0, 0)] (by decide)).2

/-- C2: whenever the hybrid search returns successfully on an empty corpus
(a falsy / `'documents'`-less `get()` result, or a record set with zero
records), the returned result list is empty.  (With `some []` the code in
fact raises before returning — `max()` of the empty score batch — so the
successful executions are exactly those of the falsy-`get()` branch.) -/
theorem search_empty_corpus (corpusGet : Option (List Nat))
    (semanticResults : List (Nat × ℚ)) (bm25Raw : Nat → ℚ) (sw bw : ℚ) (k : Nat)
    (r : List Nat)
    (hempty : corpusGet = none ∨ corpusGet = some [])
    (hok : search corpusGet semanticResults bm25Raw sw bw k = .ok r) :
    r = [] := by
  rcases hempty with h | h <;> subst h
  · simp only [search, searchRanked, Except.map, List.map_nil] at hok
    exact (Except.ok.injEq _ _).mp hok.symm ▸ rfl
  · simp only [search, searchRanked, List.length_nil, List.range_zero, List.map_nil,
      Except.map] at hok
    exact absurd hok (by simp)

/-- Witness for C2: a falsy `get()` result with a non-trivial query context
returns `.ok []`, so the theorem's hypotheses are satisfiable. -/
theorem search_empty_corpus_witness : ([] : List Nat) = [] :=
  search_empty_corpus none [(5, 1/2)] (fun _ => 1) default_semantic_weight
    default_bm25_weight 8 [] (Or.inl rfl) rfl

/-- C4: lexical normalization divides every raw BM25 score of the batch by
the batch maximum — by 1 instead when that maximum is 0, in which case (raw
scores being non-negative) every normalized score is 0 — and normalized
scores lie in [0, 1] whenever the raw scores are non-negative.  Concretely,
`[2, 1, 0]` normalizes to `[1, 1/2, 0]` and the all-zero batch `[0, 0]`
normalizes to `[0, 0]`. -/
theorem bm25_normalization (scores : List ℚ) :
    normalizedScores scores
      = scores.map (fun s => s / (if 0 < batchMax scores then batchMax scores else 1))
    ∧ (∀ s ∈ scores, s ≤ batchMax scores)
    ∧ (batchMax scores = 0 → (∀ s ∈ scores, 0 ≤ s) →
        ∀ t ∈ normalizedScores scores, t = 0)
    ∧ ((∀ s ∈ scores, 0 ≤ s) → ∀ t ∈ normalizedScores scores, 0 ≤ t ∧ t ≤ 1)
    ∧ normalizedScores [2, 1, 0] = [1, 1/2, 0]
    ∧ normalizedScores [0, 0] = [0, 0] := by
  refine ⟨rfl, fun s hs => le_batchMax hs, ?_, ?_, ?_, ?_⟩
  · intro hmax hnn t ht
    obtain ⟨s, hs, hts⟩ := List.mem_map.mp ht
    have h0 : s = 0 := le_antisymm (hmax ▸ le_batchMax hs) (hnn s hs)
    rw [← hts, h0]
    simp [maxOrOne]
  · intro hnn t ht
    obtain ⟨s, hs, hts⟩ := List.mem_map.mp ht
    subst hts
    by_cases hpos : 0 < batchMax scores
    · unfold maxOrOne
      rw [if_pos hpos]
      exact ⟨div_nonneg (hnn s hs) (le_of_lt hpos), (div_le_one hpos).mpr (le_batchMax hs)⟩
    · have hz : s = 0 :=
        le_antisymm (le_trans (le_batchMax hs) (not_lt.mp hpos)) (hnn s hs)
      unfold maxOrOne
      rw [if_neg hpos, hz]
      norm_num
  · norm_num [normalizedScores, maxOrOne, batchMax]
  · norm_num [normalizedScores, maxOrOne, batchMax]

/-- Witness for C4: the concrete batches evaluated through the theorem. -/
theorem bm25_normalization_witness :
    normalizedScores [2, 1, 0] = [1, 1/2, 0] ∧ normalizedScores [0, 0] = [0, 0] :=
  ⟨(bm25_normalization [2, 1, 0]).2.2.2.2.1, (bm25_normalization [0, 0]).2.2.2.2.2⟩

/-- C3: for every query, store response and result count `k`, the ranked list
the hybrid ranker returns has length at most `k` and is sorted by fused score
in descending order; `search` returns exactly those entries' documents.
Concretely, a 1-document corpus with `k = 2` returns the single document. -/
theorem hybrid_topk_sorted (corpusGet : Option (List Nat))
    (semanticResults : List (Nat × ℚ)) (bm25Raw : Nat → ℚ) (sw bw : ℚ) (k : Nat) :
    (∀ es, searchRanked corpusGet semanticResults bm25Raw sw bw k = .ok es →
        es.length ≤ k ∧ es.Pairwise (fun a b => b.score ≤ a.score))
    ∧ search corpusGet semanticResults bm25Raw sw bw k
        = (searchRanked corpusGet semanticResults bm25Raw sw bw k).map
            (fun l => l.map ScoreEntry.doc)
    ∧ search (some [0]) [] (fun _ => 1) default_semantic_weight default_bm25_weight 2
        = .ok [0] := by
  refine ⟨?_, rfl, ?_⟩
  · intro es hok
    unfold searchRanked at hok
    split at hok
    · injection hok with h
      subst h
      exact ⟨Nat.zero_le k, List.Pairwise.nil⟩
    · split at hok
      · exact absurd hok (by simp)
      · injection hok with h
        subst h
        constructor
        · exact List.length_take_le k _
        · unfold rankEntries
          exact List.Pairwise.sublist (List.take_sublist k _)
            (List.sorted_insertionSort (fun a b : ScoreEntry => b.score ≤ a.score) _)
  · norm_num [search, searchRanked, normalizedScores, maxOrOne, batchMax, sortPairsDesc,
      rankEntries, combineScores, addSemanticEntry, addBm25Entry, dictSet,
      List.insertionSort, List.orderedInsert, Except.map]

/-- Witness for C3: the full pipeline evaluated on a concrete 1-document
corpus through the theorem. -/
theorem hybrid_topk_sorted_witness :
    search (some [0]) [] (fun _ => 1) default_semantic_weight default_bm25_weight 2
      = .ok [0] :=
  (hybrid_topk_sorted (some [0]) [] (fun _ => 1) default_semantic_weight
    default_bm25_weight 2).2.2

lemma batchesGo_nil (limit : Nat) : ∀ fuel, batchesGo limit fuel ([] : List α) = [] := by
  intro fuel
  cases fuel <;> rfl

lemma batchesGo_fuel_inv (limit : Nat) (hlim : 0 < limit) :
    ∀ (f1 f2 : Nat) (l : List α), l.length ≤ f1 → l.length ≤ f2 →
      batchesGo limit f1 l = batchesGo limit f2 l := by
  intro f1
  induction f1 with
  | zero =>
    intro f2 l h1 _
    have h : l = [] := List.length_eq_zero.mp (Nat.le_zero.mp h1)
    subst h
    rw [batchesGo_nil, batchesGo_nil]
  | succ n ih =>
    intro f2 l h1 h2
    cases l with
    | nil => rw [batchesGo_nil, batchesGo_nil]
    | cons x xs =>
      cases f2 with
      | zero => simp at h2
      | succ m =>
        show ((x :: xs).take limit :: batchesGo limit n ((x :: xs).drop limit))
            = ((x :: xs).take limit :: batchesGo limit m ((x :: xs).drop limit))
        congr 1
        apply ih
        · rw [List.length_drop, List.length_cons]
          simp only [List.length_cons] at h1
          omega
        · rw [List.length_drop, List.length_cons]
          simp only [List.length_cons] at h2
          omega

lemma batches_cons (limit : Nat) (hlim : 0 < limit) (l : List α) (hne : l ≠ []) :
    batches limit l = l.take limit :: batches limit (l.drop limit) := by
  cases l with
  | nil => exact absurd rfl hne
  | cons x xs =>
    show ((x :: xs).take limit :: batchesGo limit xs.length ((x :: xs).drop limit))
        = ((x :: xs).take limit :: batches limit ((x :: xs).drop limit))
    congr 1
    apply batchesGo_fuel_inv limit hlim
    · rw [List.length_drop, List.length_cons]
      omega
    · exact le_refl _

lemma batchesGo_flatten (limit : Nat) (hlim : 0 < limit) :
    ∀ (fuel : Nat) (l : List α), l.length ≤ fuel → (batchesGo limit fuel l).flatten = l := by
  intro fuel
  induction fuel with
  | zero =>
    intro l h
    have hl : l = [] := List.length_eq_zero.mp (Nat.le_zero.mp h)
    subst hl
    rfl
  | succ n ih =>
    intro l h
    cases l with
    | nil => rfl
    | cons x xs =>
      simp only [List.length_cons] at h
      have hlen : ((x :: xs).drop limit).length ≤ n := by
        rw [List.length_drop, List.length_cons]
        omega
      show (((x :: xs).take limit :: batchesGo limit n ((x :: xs).drop limit)).flatten)
          = x :: xs
      rw [List.flatten_cons, ih _ hlen, List.take_append_drop]

lemma batchesGo_mem (limit : Nat) (hlim : 0 < limit) :
    ∀ (fuel : Nat) (l : List α), ∀ b ∈ batchesGo limit fuel l, b.length ≤ limit ∧ b ≠ [] := by
  intro fuel
  induction fuel with
  | zero =>
    intro l b hb
    exact absurd hb (by rw [batchesGo]; exact List.not_mem_nil b)
  | succ n ih =>
    intro l b hb
    cases l with
    | nil => exact absurd hb (by rw [batchesGo_nil]; exact List.not_mem_nil b)
    | cons x xs =>
      have hb2 : b ∈ ((x :: xs).take limit :: batchesGo limit n ((x :: xs).drop limit)) := hb
      rcases List.mem_cons.mp hb2 with h | h
      · subst h
        refine ⟨List.length_take_le limit _, ?_⟩
        intro hcon
        rcases List.take_eq_nil_iff.mp hcon with h | h
        · omega
        · exact List.cons_ne_nil x xs h
      · exact ih _ b h

lemma batchCallLoop_all_ok {β ε : Type} (f : β → Except ε Unit) :
    ∀ (bs : List β), (∀ b ∈ bs, f b = .ok ()) → batchCallLoop f bs = (bs, .ok ()) := by
  intro bs
  induction bs with
  | nil => intro _; rfl
  | cons b rest ih =>
    intro h
    have hb : f b = .ok () := h b (List.mem_cons_self b rest)
    simp only [batchCallLoop, hb]
    rw [ih (fun b2 hb2 => h b2 (List.mem_cons_of_mem b hb2))]

/-- C5: the existing record ids are deleted in consecutive in-order batches
of at most `BATCH_DELETE_LIMIT = 5000` ids (their concatenation is the full
id list, and when all delete calls succeed the issued calls are exactly one
per batch, after the fetch); an index of exactly 12,000 records yields
exactly 3 delete batches of sizes 5000, 5000 and 2000. -/
theorem delete_batching (ι ε χ : Type) (ids : List ι) :
    (batches BATCH_DELETE_LIMIT ids).flatten = ids
    ∧ (∀ b ∈ batches BATCH_DELETE_LIMIT ids, b.length ≤ BATCH_DELETE_LIMIT ∧ b ≠ [])
    ∧ (∀ (sb : StoreBehavior ε ι χ), sb.fetchIds = .ok ids → ids ≠ [] →
        (∀ b, sb.deleteBatch b = .ok ()) →
        cleanupPhase sb
          = .fetchIds :: (batches BATCH_DELETE_LIMIT ids).map StoreCall.deleteIds)
    ∧ (ids.length = 12000 →
        (batches BATCH_DELETE_LIMIT ids).map List.length = [5000, 5000, 2000]) := by
  have hlim : 0 < BATCH_DELETE_LIMIT := by norm_num [BATCH_DELETE_LIMIT]
  refine ⟨batchesGo_flatten BATCH_DELETE_LIMIT hlim ids.length ids (le_refl _),
    fun b hb => batchesGo_mem BATCH_DELETE_LIMIT hlim ids.length ids b hb, ?_, ?_⟩
  · intro sb hfetch hne hdel
    simp only [cleanupPhase, hfetch]
    rw [if_neg (by simpa [List.isEmpty_iff] using hne)]
    rw [batchCallLoop_all_ok sb.deleteBatch _ (fun b _ => hdel b)]
  · intro h12
    have hne : ids ≠ [] := by
      intro hc
      rw [hc] at h12
      simp at h12
    have hlen1 : (ids.drop BATCH_DELETE_LIMIT).length = 7000 := by
      rw [List.length_drop, h12]
      norm_num [BATCH_DELETE_LIMIT]
    have hne1 : ids.drop BATCH_DELETE_LIMIT ≠ [] := by
      intro hc
      rw [hc] at hlen1
      simp at hlen1
    have hlen2 : ((ids.drop BATCH_DELETE_LIMIT).drop BATCH_DELETE_LIMIT).length = 2000 := by
      rw [List.length_drop, hlen1]
      norm_num [BATCH_DELETE_LIMIT]
    have hne2 : (ids.drop BATCH_DELETE_LIMIT).drop BATCH_DELETE_LIMIT ≠ [] := by
      intro hc
      rw [hc] at hlen2
      simp at hlen2
    have hnil3 : (((ids.drop BATCH_DELETE_LIMIT).drop BATCH_DELETE_LIMIT).drop
        BATCH_DELETE_LIMIT) = [] := by
      apply List.drop_eq_nil_of_le
      rw [hlen2]
      norm_num [BATCH_DELETE_LIMIT]
    rw [batches_cons _ hlim ids hne, batches_cons _ hlim _ hne1, batches_cons _ hlim _ hne2,
      hnil3]
    show List.map List.length (_ :: _ :: _ :: batchesGo BATCH_DELETE_LIMIT 0 []) = _
    simp only [batchesGo, List.map_cons, List.map_nil, List.length_take]
    rw [h12, hlen1, hlen2]
    norm_num [BATCH_DELETE_LIMIT]

/-- Witness for C5: a concrete 12,000-id index through the theorem. -/
theorem delete_batching_witness :
    (batches BATCH_DELETE_LIMIT (List.range 12000)).map List.length = [5000, 5000, 2000] :=
  (delete_batching Nat Unit Unit (List.range 12000)).2.2.2 (by simp)

lemma valid_file_not_ignored {n : String} (hv : is_valid_file n = true) :
    n ∉ IGNORED_DIRS := by
  have hall : ∀ d ∈ IGNORED_DIRS, is_valid_file d = false := by decide
  intro hmem
  rw [hall n hmem] at hv
  cases hv

lemma dirFiles_mem {pre : List String} {es : List FSEntry} {p : List String}
    (hp : p ∈ dirFiles pre es) :
    ∃ n, is_valid_file n = true ∧ p = pre ++ [n] := by
  obtain ⟨e, _, hfe⟩ := List.mem_filterMap.mp hp
  cases e with
  | file n =>
    dsimp only at hfe
    by_cases hv : is_valid_file n = true
    · rw [if_pos hv] at hfe
      exact ⟨n, hv, ((Option.some.injEq _ _).mp hfe).symm⟩
    · rw [if_neg hv] at hfe
      cases hfe
  | dir n children =>
    dsimp only at hfe
    cases hfe

lemma dirFiles_segments (pre : List String) (es : List FSEntry)
    (hpre : ∀ s ∈ pre, s ∉ IGNORED_DIRS) :
    ∀ p ∈ dirFiles pre es, ∀ seg ∈ p, seg ∉ IGNORED_DIRS := by
  intro p hp seg hseg
  obtain ⟨n, hv, hpn⟩ := dirFiles_mem hp
  subst hpn
  rcases List.mem_append.mp hseg with h | h
  · exact hpre seg h
  · simp only [List.mem_singleton] at h
    subst h
    exact valid_file_not_ignored hv

lemma walk_segments (N : Nat) :
    ∀ (es : List FSEntry), sizeOf es ≤ N → ∀ (pre : List String),
      (∀ s ∈ pre, s ∉ IGNORED_DIRS) →
      ∀ p ∈ walkList pre es, ∀ seg ∈ p, seg ∉ IGNORED_DIRS := by
  induction N with
  | zero =>
    intro es hsz
    exact absurd hsz (by cases es <;> simp)
  | succ n ih =>
    intro es hsz pre hpre p hp
    cases es with
    | nil => simp [walkList] at hp
    | cons e rest =>
      rw [walkList] at hp
      rcases List.mem_append.mp hp with h | h
      · cases e with
        | file nm => simp [walkEntry] at h
        | dir nm children =>
          rw [walkEntry] at h
          by_cases hig : nm ∈ IGNORED_DIRS
          · rw [if_pos hig] at h
            simp at h
          · rw [if_neg hig] at h
            have hpre2 : ∀ s ∈ pre ++ [nm], s ∉ IGNORED_DIRS := by
              intro s hs
              rcases List.mem_append.mp hs with h1 | h1
              · exact hpre s h1
              · simp only [List.mem_singleton] at h1
                subst h1
                exact hig
            rcases List.mem_append.mp h with h2 | h2
            · exact dirFiles_segments _ _ hpre2 p h2
            · refine ih children ?_ (pre ++ [nm]) hpre2 p h2
              have h3 : sizeOf children < sizeOf (FSEntry.dir nm children :: rest) := by
                simp only [List.cons.sizeOf_spec, FSEntry.dir.sizeOf_spec]
                omega
              omega
      · refine ih rest ?_ pre hpre p h
        have h3 : sizeOf rest < sizeOf (e :: rest) := by
          simp only [List.cons.sizeOf_spec]
          omega
        omega

/-- C6: for every repository tree, no document collected by the walk has a
path (relative to the repository root) containing a denylisted directory
name as a segment, at any depth — and hence neither does any chunk whose
source path is drawn from a collected document. -/
theorem denylist_excluded (tree : List FSEntry) :
    (∀ p ∈ load_documents tree, ∀ seg ∈ p, seg ∉ IGNORED_DIRS)
    ∧ ∀ (chunkSources : List (List String)),
        (∀ c ∈ chunkSources, c ∈ load_documents tree) →
        ∀ c ∈ chunkSources, ∀ seg ∈ c, seg ∉ IGNORED_DIRS := by
  have hmain : ∀ p ∈ load_documents tree, ∀ seg ∈ p, seg ∉ IGNORED_DIRS := by
    intro p hp
    rcases List.mem_append.mp hp with h | h
    · exact dirFiles_segments [] tree (by intro s hs; exact absurd hs (List.not_mem_nil s)) p h
    · exact walk_segments (sizeOf tree) tree (le_refl _) []
        (by intro s hs; exact absurd hs (List.not_mem_nil s)) p h
  exact ⟨hmain, fun cs hcs c hc => hmain c (hcs c hc)⟩

/-- Witness for C6: a repository with a `node_modules` subtree, through the
theorem. -/
theorem denylist_excluded_witness : ("b.py" : String) ∉ IGNORED_DIRS :=
  (denylist_excluded [.dir "node_modules" [.file "a.py"], .file "b.py"]).2
    [["b.py"]] (by decide) ["b.py"] (by decide) "b.py" (by decide)

/-- C7: the outcome of the index-replacement step equals the outcome of the
insert loop alone — a fetch/delete failure is logged and never affects it,
and insertion is still attempted after a fetch failure — while an insert
failure aborts the loop at the failing batch and is surfaced verbatim to the
caller. -/
theorem ingest_error_asymmetry (ε ι χ : Type) (sb : StoreBehavior ε ι χ) (chunks : List χ) :
    (storePhase sb chunks).2 = (batchCallLoop sb.insertBatch (batches BATCH_SIZE chunks)).2
    ∧ (∀ e, sb.fetchIds = .error e →
        (storePhase sb chunks).1 = .fetchIds :: (insertPhase sb chunks).1)
    ∧ ((∀ b ∈ batches BATCH_SIZE chunks, sb.insertBatch b = .ok ()) →
        (storePhase sb chunks).2 = .ok ())
    ∧ (∀ b bs e, batches BATCH_SIZE chunks = b :: bs → sb.insertBatch b = .error e →
        (storePhase sb chunks).2 = .error e ∧ (insertPhase sb chunks).1 = [.insertChunks b]) := by
  refine ⟨rfl, ?_, ?_, ?_⟩
  · intro e he
    simp only [storePhase, cleanupPhase, he, List.singleton_append]
  · intro h
    show (batchCallLoop sb.insertBatch (batches BATCH_SIZE chunks)).2 = .ok ()
    rw [batchCallLoop_all_ok sb.insertBatch _ h]
  · intro b bs e hb he
    constructor
    · show (batchCallLoop sb.insertBatch (batches BATCH_SIZE chunks)).2 = .error e
      rw [hb]
      simp only [batchCallLoop, he]
    · show ((batchCallLoop sb.insertBatch (batches BATCH_SIZE chunks)).1.map
        StoreCall.insertChunks) = _
      rw [hb]
      simp only [batchCallLoop, he, List.map_cons, List.map_nil]

/-- Witness for C7: a store whose fetch fails still receives the insert call
and succeeds; a store whose insert fails surfaces the error after exactly
one insert call. -/
theorem ingest_error_asymmetry_witness :
    ((storePhase (⟨.error (), fun _ => .ok (), fun _ => .ok ()⟩ : StoreBehavior Unit Nat Nat)
        ([0] : List Nat)).1
      = .fetchIds :: (insertPhase (⟨.error (), fun _ => .ok (), fun _ => .ok ()⟩ :
          StoreBehavior Unit Nat Nat) ([0] : List Nat)).1)
    ∧ ((storePhase (⟨.ok [], fun _ => .ok (), fun _ => .error ()⟩ : StoreBehavior Unit Nat Nat)
        ([0] : List Nat)).2 = .error ()
      ∧ (insertPhase (⟨.ok [], fun _ => .ok (), fun _ => .error ()⟩ :
          StoreBehavior Unit Nat Nat) ([0] : List Nat)).1 = [.insertChunks [0]]) :=
  ⟨(ingest_error_asymmetry Unit Nat Nat ⟨.error (), fun _ => .ok (), fun _ => .ok ()⟩
      [0]).2.1 () rfl,
   (ingest_error_asymmetry Unit Nat Nat ⟨.ok [], fun _ => .ok (), fun _ => .error ()⟩
      [0]).2.2.2 [0] [] () (by decide) rfl⟩


lemma js_sub_supported {ext : String} (h : ext ∈ jsExtensions) :
    ext ∈ supportedExtensions := by
  simp only [jsExtensions, List.mem_cons, List.not_mem_nil, or_false] at h
  rcases h with h | h | h | h <;> (rw [h]; decide)

lemma parse_file_unsupported (treeOf : Except ParseError TSNode) (fp ext : String)
    (h : ext ∉ supportedExtensions) : parse_file treeOf fp ext = [] := by
  have h1 : ¬(ext = ".py") := fun hc => h (by rw [hc]; decide)
  have h2 : ¬(ext ∈ jsExtensions) := fun hc => h (js_sub_supported hc)
  unfold parse_file
  rw [if_neg h1, if_neg h2]

lemma parse_file_error (err : ParseError) (fp ext : String) :
    parse_file (.error err) fp ext = [] := by
  unfold parse_file
  split_ifs <;> rfl

lemma assocSet_keys {m : List (String × List CodeEntity)} {k key : String}
    {v : List CodeEntity} (h : key ∈ (assocSet m k v).map Prod.fst) :
    key ∈ m.map Prod.fst ∨ key = k := by
  unfold assocSet at h
  split at h
  · rw [List.map_map] at h
    obtain ⟨x, hx, hfx⟩ := List.mem_map.mp h
    simp only [Function.comp_apply] at hfx
    by_cases hd : x.1 = k
    · rw [if_pos hd] at hfx
      exact Or.inr (by rw [← hfx])
    · rw [if_neg hd] at hfx
      exact Or.inl (List.mem_map.mpr ⟨x, hx, hfx⟩)
  · rw [List.map_append] at h
    rcases List.mem_append.mp h with h | h
    · exact Or.inl h
    · simp only [List.map_cons, List.map_nil, List.mem_singleton] at h
      exact Or.inr h

lemma extract_keys (treeOf : SrcDoc → Except ParseError TSNode) :
    ∀ (docs : List SrcDoc) (m : List (String × List CodeEntity)),
      ∀ key ∈ (docs.foldl (extractStep treeOf) m).map Prod.fst,
        key ∈ m.map Prod.fst
        ∨ ∃ d ∈ docs, d.source = key ∧ parse_file (treeOf d) d.source d.extension ≠ [] := by
  intro docs
  induction docs with
  | nil => intro m key hk; exact Or.inl hk
  | cons d rest ih =>
    intro m key hk
    rcases ih (extractStep treeOf m d) key hk with h | h
    · unfold extractStep at h
      split at h
      · split at h
        · exact Or.inl h
        · rcases assocSet_keys h with h1 | h1
          · exact Or.inl h1
          · refine Or.inr ⟨d, List.mem_cons_self d rest, h1.symm ▸ rfl, ?_⟩
            rename_i hsup hne
            exact fun hc => hne (by rw [hc]; rfl)
      · exact Or.inl h
    · obtain ⟨d2, hd2, hrest⟩ := h
      exact Or.inr ⟨d2, List.mem_cons_of_mem d hd2, hrest⟩

/-- C8: `parse_file` returns the empty entity list for every unsupported
extension and whenever the parse oracle fails (the exception is caught
inside `parse_file`), so extraction over a document collection is total, a
document whose parse yields nothing never affects the other documents'
results, and only documents that produced entities contribute a key to the
result map. -/
theorem parse_fail_soft :
    (∀ (treeOf : Except ParseError TSNode) (fp ext : String),
        ext ∉ supportedExtensions → parse_file treeOf fp ext = [])
    ∧ (∀ (err : ParseError) (fp ext : String), parse_file (.error err) fp ext = [])
    ∧ (∀ (treeOf : SrcDoc → Except ParseError TSNode) (docs : List SrcDoc) (key : String),
        key ∈ (extract_code_entities treeOf docs).map Prod.fst →
        ∃ d ∈ docs, d.source = key ∧ parse_file (treeOf d) d.source d.extension ≠ [])
    ∧ (∀ (treeOf : SrcDoc → Except ParseError TSNode) (pre post : List SrcDoc) (d : SrcDoc),
        parse_file (treeOf d) d.source d.extension = [] →
        extract_code_entities treeOf (pre ++ d :: post)
          = extract_code_entities treeOf (pre ++ post)) := by
  refine ⟨parse_file_unsupported, parse_file_error, ?_, ?_⟩
  · intro treeOf docs key hk
    rcases extract_keys treeOf docs [] key hk with h | h
    · exact absurd h (by simp)
    · exact h
  · intro treeOf pre post d hd
    unfold extract_code_entities
    rw [List.foldl_append, List.foldl_append, List.foldl_cons]
    have hstep : extractStep treeOf (pre.foldl (extractStep treeOf) []) d
        = pre.foldl (extractStep treeOf) [] := by
      unfold extractStep
      split
      · rw [hd]
        rfl
      · rfl
    rw [hstep]

/-- Witness for C8: a failing parse of a `.py` file, through the theorem. -/
theorem parse_fail_soft_witness :
    parse_file (.error .parseFailed) "broken.py" ".py" = [] :=
  parse_fail_soft.2.1 .parseFailed "broken.py" ".py"



lemma mem_pyTraverseList {fp : String} {e : CodeEntity} :
    ∀ (cs : List TSNode), e ∈ pyTraverseList fp cs ↔ ∃ c ∈ cs, e ∈ pyTraverse fp c := by
  intro cs
  induction cs with
  | nil => simp [pyTraverseList]
  | cons c cs ih =>
    rw [pyTraverseList, List.mem_append, ih]
    constructor
    · rintro (h | ⟨c2, hc2, he2⟩)
      · exact ⟨c, List.mem_cons_self c cs, h⟩
      · exact ⟨c2, List.mem_cons_of_mem c hc2, he2⟩
    · rintro ⟨c2, hc2, he2⟩
      rcases List.mem_cons.mp hc2 with h | h
      · exact Or.inl (h ▸ he2)
      · exact Or.inr ⟨c2, h, he2⟩

lemma mem_jsTraverseList {fp : String} {e : CodeEntity} :
    ∀ (cs : List TSNode), e ∈ jsTraverseList fp cs ↔ ∃ c ∈ cs, e ∈ jsTraverse fp c := by
  intro cs
  induction cs with
  | nil => simp [jsTraverseList]
  | cons c cs ih =>
    rw [jsTraverseList, List.mem_append, ih]
    constructor
    · rintro (h | ⟨c2, hc2, he2⟩)
      · exact ⟨c, List.mem_cons_self c cs, h⟩
      · exact ⟨c2, List.mem_cons_of_mem c hc2, he2⟩
    · rintro ⟨c2, hc2, he2⟩
      rcases List.mem_cons.mp hc2 with h | h
      · exact Or.inl (h ▸ he2)
      · exact Or.inr ⟨c2, h, he2⟩

lemma pyNodeEntities_spec {fp : String} {n : TSNode} {e : CodeEntity}
    (h : e ∈ pyNodeEntities fp n) :
    e.start_line = n.startRow + 1 ∧ e.end_line = n.endRow + 1 ∧ e.file_path = fp
    ∧ n.nameText = some e.name
    ∧ ((n.ty = "function_definition" ∧ e.entity_type = "function")
        ∨ (n.ty = "class_definition" ∧ e.entity_type = "class")) := by
  unfold pyNodeEntities at h
  split_ifs at h with h1 h2
  · cases hnm : n.nameText with
    | none => rw [hnm] at h; cases h
    | some nm =>
      rw [hnm] at h
      simp only [List.mem_singleton] at h
      subst h
      exact ⟨rfl, rfl, rfl, rfl, Or.inl ⟨h1, rfl⟩⟩
  · cases hnm : n.nameText with
    | none => rw [hnm] at h; cases h
    | some nm =>
      rw [hnm] at h
      simp only [List.mem_singleton] at h
      subst h
      exact ⟨rfl, rfl, rfl, rfl, Or.inr ⟨h2, rfl⟩⟩
  · cases h

lemma jsNodeEntities_spec {fp : String} {n : TSNode} {e : CodeEntity}
    (h : e ∈ jsNodeEntities fp n) :
    e.start_line = n.startRow + 1 ∧ e.end_line = n.endRow + 1 ∧ e.file_path = fp
    ∧ (((n.ty = "function_declaration" ∨ n.ty = "function") ∧ e.entity_type = "function"
          ∧ n.nameText = some e.name)
       ∨ (n.ty = "lexical_declaration" ∧ e.entity_type = "function"
          ∧ ∃ c ∈ n.children, c.ty = "variable_declarator" ∧ c.nameText = some e.name
              ∧ (c.valueType = some "arrow_function" ∨ c.valueType = some "function"))
       ∨ (n.ty = "class_declaration" ∧ e.entity_type = "class"
          ∧ n.nameText = some e.name)) := by
  unfold jsNodeEntities at h
  split_ifs at h with h1 h2 h3
  · cases hnm : n.nameText with
    | none => rw [hnm] at h; cases h
    | some nm =>
      rw [hnm] at h
      simp only [List.mem_singleton] at h
      subst h
      exact ⟨rfl, rfl, rfl, Or.inl ⟨h1, rfl, rfl⟩⟩
  · obtain ⟨c, hc, hfc⟩ := List.mem_filterMap.mp h
    by_cases hcd : c.ty = "variable_declarator"
    · rw [if_pos hcd] at hfc
      cases hnm : c.nameText with
      | none =>
        rw [hnm] at hfc
        cases hvt : c.valueType <;> (rw [hvt] at hfc; cases hfc)
      | some nm =>
        cases hvt : c.valueType with
        | none =>
          rw [hnm, hvt] at hfc
          cases hfc
        | some vt =>
          rw [hnm, hvt] at hfc
          dsimp only at hfc
          by_cases harrow : vt = "arrow_function" ∨ vt = "function"
          · rw [if_pos harrow] at hfc
            injection hfc with hfc
            subst hfc
            refine ⟨rfl, rfl, rfl, Or.inr (Or.inl ⟨h2, rfl, c, hc, hcd, hnm, ?_⟩)⟩
            rcases harrow with h4 | h4
            · exact Or.inl (by rw [hvt, h4])
            · exact Or.inr (by rw [hvt, h4])
          · rw [if_neg harrow] at hfc
            cases hfc
    · rw [if_neg hcd] at hfc
      cases hfc
  · cases hnm : n.nameText with
    | none => rw [hnm] at h; cases h
    | some nm =>
      rw [hnm] at h
      simp only [List.mem_singleton] at h
      subst h
      exact ⟨rfl, rfl, rfl, Or.inr (Or.inr ⟨h3, rfl, rfl⟩)⟩
  · cases h

lemma pyTraverse_spec (fp : String) (N : Nat) :
    ∀ (n : TSNode), sizeOf n ≤ N → ∀ e ∈ pyTraverse fp n,
      ∃ m, Subnode m n ∧ e.start_line = m.startRow + 1 ∧ e.end_line = m.endRow + 1
        ∧ e.file_path = fp ∧ m.nameText = some e.name
        ∧ ((m.ty = "function_definition" ∧ e.entity_type = "function")
            ∨ (m.ty = "class_definition" ∧ e.entity_type = "class")) := by
  induction N with
  | zero =>
    intro n hsz
    refine absurd hsz ?_
    cases n
    simp only [TSNode.mk.sizeOf_spec]
    omega
  | succ N ih =>
    intro n hsz e he
    cases n with
    | mk ty s r nm vt cs =>
      rw [pyTraverse] at he
      rcases List.mem_append.mp he with h | h
      · exact ⟨TSNode.mk ty s r nm vt cs, Subnode.refl _, pyNodeEntities_spec h⟩
      · obtain ⟨c, hc, hec⟩ := (mem_pyTraverseList cs).mp h
        have hsc : sizeOf c ≤ N := by
          have hlt := List.sizeOf_lt_of_mem hc
          simp only [TSNode.mk.sizeOf_spec] at hsz
          omega
        obtain ⟨m, hsub, hrest⟩ := ih c hsc e hec
        exact ⟨m, Subnode.child hc hsub, hrest⟩

lemma jsTraverse_spec (fp : String) (N : Nat) :
    ∀ (n : TSNode), sizeOf n ≤ N → ∀ e ∈ jsTraverse fp n,
      ∃ m, Subnode m n ∧ e.start_line = m.startRow + 1 ∧ e.end_line = m.endRow + 1
        ∧ e.file_path = fp
        ∧ (((m.ty = "function_declaration" ∨ m.ty = "function")
              ∧ e.entity_type = "function" ∧ m.nameText = some e.name)
           ∨ (m.ty = "lexical_declaration" ∧ e.entity_type = "function"
              ∧ ∃ c ∈ m.children, c.ty = "variable_declarator" ∧ c.nameText = some e.name
                  ∧ (c.valueType = some "arrow_function" ∨ c.valueType = some "function"))
           ∨ (m.ty = "class_declaration" ∧ e.entity_type = "class"
              ∧ m.nameText = some e.name)) := by
  induction N with
  | zero =>
    intro n hsz
    refine absurd hsz ?_
    cases n
    simp only [TSNode.mk.sizeOf_spec]
    omega
  | succ N ih =>
    intro n hsz e he
    cases n with
    | mk ty s r nm vt cs =>
      rw [jsTraverse] at he
      rcases List.mem_append.mp he with h | h
      · exact ⟨TSNode.mk ty s r nm vt cs, Subnode.refl _, jsNodeEntities_spec h⟩
      · obtain ⟨c, hc, hec⟩ := (mem_jsTraverseList cs).mp h
        have hsc : sizeOf c ≤ N := by
          have hlt := List.sizeOf_lt_of_mem hc
          simp only [TSNode.mk.sizeOf_spec] at hsz
          omega
        obtain ⟨m, hsub, hrest⟩ := ih c hsc e hec
        exact ⟨m, Subnode.child hc hsub, hrest⟩

/-- C9: every entity emitted by the Python or JS/TS traversal carries
1-indexed inclusive line numbers `start_point[0] + 1 .. end_point[0] + 1`
taken from a definition node of the tree; and a variable bound directly to
an arrow-function/function expression yields a `function` entity named after
the variable whose line span is that of the whole enclosing
`lexical_declaration` statement — concretely, in
`const g = 1,\n      f = () => x;` the entity for `f` spans lines 1–2
(the whole declaration) although the arrow literal sits on line 2 alone. -/
theorem entity_line_spans :
    (∀ (fp : String) (n : TSNode), ∀ e ∈ pyTraverse fp n,
        ∃ m, Subnode m n ∧ e.start_line = m.startRow + 1 ∧ e.end_line = m.endRow + 1
          ∧ e.file_path = fp ∧ m.nameText = some e.name
          ∧ ((m.ty = "function_definition" ∧ e.entity_type = "function")
              ∨ (m.ty = "class_definition" ∧ e.entity_type = "class")))
    ∧ (∀ (fp : String) (n : TSNode), ∀ e ∈ jsTraverse fp n,
        ∃ m, Subnode m n ∧ e.start_line = m.startRow + 1 ∧ e.end_line = m.endRow + 1
          ∧ e.file_path = fp
          ∧ (((m.ty = "function_declaration" ∨ m.ty = "function")
                ∧ e.entity_type = "function" ∧ m.nameText = some e.name)
             ∨ (m.ty = "lexical_declaration" ∧ e.entity_type = "function"
                ∧ ∃ c ∈ m.children, c.ty = "variable_declarator" ∧ c.nameText = some e.name
                    ∧ (c.valueType = some "arrow_function" ∨ c.valueType = some "function"))
             ∨ (m.ty = "class_declaration" ∧ e.entity_type = "class"
                ∧ m.nameText = some e.name)))
    ∧ jsTraverse "src/app.js" sampleArrowDecl
        = [⟨"function", "f", 1, 2, "src/app.js"⟩] :=
  ⟨fun fp n e he => pyTraverse_spec fp (sizeOf n) n (le_refl _) e he,
   fun fp n e he => jsTraverse_spec fp (sizeOf n) n (le_refl _) e he,
   by decide⟩

/-- Witness for C9: the two-declarator arrow-function statement, through
the theorem. -/
theorem entity_line_spans_witness :
    jsTraverse "src/app.js" sampleArrowDecl = [⟨"function", "f", 1, 2, "src/app.js"⟩] :=
  entity_line_spans.2.2

/-- C10: when the repository path exists but the walk loads no valid
documents, ingestion yields exactly the startup messages ending with the
no-valid-documents report and issues no Index Store call at all, so any
store state is left exactly as it was. -/
theorem ingest_no_docs (ε ι χ : Type) (tree : List FSEntry)
    (chunker : List (List String) → List χ) (sb : StoreBehavior ε ι χ)
    (hdocs : load_documents tree = []) :
    ingest_repository_stream true tree chunker sb
      = ([.starting, .repoPath, .step1Loading, .noValidDocs], [], .ok ())
    ∧ (∀ (σ : Type) (st : σ) (applyCall : σ → StoreCall ι χ → σ),
        ((ingest_repository_stream true tree chunker sb).2.1).foldl applyCall st = st) := by
  have h : ingest_repository_stream true tree chunker sb
      = ([.starting, .repoPath, .step1Loading, .noValidDocs], [], .ok ()) := by
    simp [ingest_repository_stream, hdocs]
  refine ⟨h, ?_⟩
  intro σ st applyCall
  rw [h]
  rfl

/-- Witness for C10: an empty repository tree, through the theorem. -/
theorem ingest_no_docs_witness :
    ingest_repository_stream true ([] : List FSEntry) (fun _ => ([] : List Nat))
        (⟨.ok [], fun _ => .ok (), fun _ => .ok ()⟩ : StoreBehavior Unit Nat Nat)
      = ([.starting, .repoPath, .step1Loading, .noValidDocs], [], .ok ()) :=
  (ingest_no_docs Unit Nat Nat [] (fun _ => []) ⟨.ok [], fun _ => .ok (), fun _ => .ok ()⟩
    rfl).1


end CodeScope
